import Mathlib

/-!
Shallow embedding of the emporous-go link-graph build engine.

The development embeds, in order:
* the typed attribute / `Properties` model and its deterministic JSON
  serialization (mirroring the `descriptor` package and its test
  `TestProperties_MarshalJSON`);
* the template-value predicate `tFunc` and the per-file parsing and
  edge-construction steps of `BuildOptions.Run` in `cli/build.go`;
* the content link graph, `AddEdge`, the three-color depth-first
  `TopologicalOrder`, and the dependency-ordered `Resolve` engine;
* `BuildOptions.Complete` and `BuildOptions.Validate` from `cli/build.go`.

Go machine details are modelled as follows: `interface{}` values extracted
by the parser become the closed sum `Value`; Go maps become association
lists, with map-iteration nondeterminism captured by quantifying over
permutations of those lists; byte slices become `String`; fallible Go
functions return `Except`/`Option`.
-/

/-- Closed set of scalar attribute kinds (string, int, bool). -/
inductive Scalar where
  | s (v : String)
  | i (v : Int)
  | b (v : Bool)
deriving DecidableEq

/-- An attribute value: a scalar or a list of scalars. -/
inductive AttrValue where
  | sc (v : Scalar)
  | arr (vs : List Scalar)
deriving DecidableEq

/-- An attribute set: a mapping from string keys to typed values. -/
def AttributeSet : Type := List (String × AttrValue)

instance : DecidableEq AttributeSet := by
  unfold AttributeSet
  infer_instance

/-- Link attributes of `collection-spec` (`registryHint`, `namespaceHint`,
`transitive`), as exercised by `TestProperties_MarshalJSON`. -/
structure LinkAttributes where
  registryHint : String
  namespaceHint : String
  transitive : Bool
deriving DecidableEq

/-- Component identity fields of the descriptor attributes, in the key order
shown by the expected JSON of `TestProperties_MarshalJSON`. -/
structure Component where
  id : String
  name : String
  version : String
  type : String
  foundBy : String
  locations : Option (List String)
  licenses : Option (List String)
  language : String
  cpes : Option (List String)
  purl : String
deriving DecidableEq

/-- Zero value of `LinkAttributes` (Go zero value). -/
def zeroLink : LinkAttributes := ⟨"", "", false⟩

/-- Zero value of `Component` (Go zero value; nil slices). -/
def zeroComponent : Component := ⟨"", "", "", "", "", none, none, "", none, ""⟩

/-- The `Properties` composite: optional link attributes, optional
descriptor attributes, and an open-ended mapping of named attribute sets. -/
structure Properties where
  link : Option LinkAttributes
  descriptor : Option Component
  others : List (String × AttributeSet)
deriving DecidableEq

/-- Default (empty) properties. -/
def Properties.empty : Properties := ⟨none, none, []⟩

/-- Executable lexicographic comparison of character lists by code point. -/
def charListLe : List Char → List Char → Bool
  | [], _ => true
  | _ :: _, [] => false
  | a :: as, b :: bs =>
    if a.toNat < b.toNat then true
    else if b.toNat < a.toNat then false
    else charListLe as bs

/-- Executable lexicographic order on strings, the order Go's `sort.Strings`
uses for deterministic key ordering. -/
def strLe (a b : String) : Bool := charListLe a.data b.data

theorem charListLe_total : ∀ as bs, charListLe as bs = true ∨ charListLe bs as = true
  | [], _ => Or.inl rfl
  | _ :: _, [] => Or.inr rfl
  | a :: as, b :: bs => by
    rcases Nat.lt_trichotomy a.toNat b.toNat with h | h | h
    · exact Or.inl (by simp [charListLe, h])
    · have := charListLe_total as bs
      rcases this with h2 | h2
      · exact Or.inl (by simp [charListLe, h, h2])
      · exact Or.inr (by simp [charListLe, h, h2])
    · exact Or.inr (by simp [charListLe, h])

theorem charListLe_trans : ∀ as bs cs, charListLe as bs = true → charListLe bs cs = true →
    charListLe as cs = true
  | [], _, _ => by intro _ _; rfl
  | _ :: _, [], _ => by intro h _; simp [charListLe] at h
  | _ :: _, _ :: _, [] => by intro _ h; simp [charListLe] at h
  | a :: as, b :: bs, c :: cs => by
    intro h1 h2
    simp only [charListLe] at h1 h2 ⊢
    by_cases hab : a.toNat < b.toNat
    · by_cases hbc : b.toNat < c.toNat
      · simp [Nat.lt_trans hab hbc]
      · by_cases hcb : c.toNat < b.toNat
        · simp [hab, hbc, hcb] at h2
        · have hb : b.toNat = c.toNat := Nat.le_antisymm (Nat.le_of_not_lt hcb) (Nat.le_of_not_lt hbc)
          simp [hb ▸ hab]
    · by_cases hba : b.toNat < a.toNat
      · simp [hab, hba] at h1
      · have haeq : a.toNat = b.toNat := Nat.le_antisymm (Nat.le_of_not_lt hba) (Nat.le_of_not_lt hab)
        by_cases hbc : b.toNat < c.toNat
        · simp [haeq ▸ hbc]
        · by_cases hcb : c.toNat < b.toNat
          · simp [hbc, hcb] at h2
          · have hbeq : b.toNat = c.toNat :=
              Nat.le_antisymm (Nat.le_of_not_lt hcb) (Nat.le_of_not_lt hbc)
            simp only [hab, hba, if_neg, ite_false] at h1
            simp only [hbc, hcb, if_neg, ite_false] at h2
            have hac : ¬ a.toNat < c.toNat := by omega
            have hca : ¬ c.toNat < a.toNat := by omega
            simp [hac, hca, charListLe_trans as bs cs h1 h2]

theorem charListLe_antisymm : ∀ as bs, charListLe as bs = true → charListLe bs as = true →
    as = bs
  | [], [] => by intro _ _; rfl
  | [], _ :: _ => by intro _ h; simp [charListLe] at h
  | _ :: _, [] => by intro h _; simp [charListLe] at h
  | a :: as, b :: bs => by
    intro h1 h2
    simp only [charListLe] at h1 h2
    rcases Nat.lt_trichotomy a.toNat b.toNat with hab | hab | hab
    · simp_all [Nat.lt_asymm hab]
    · have ha : a = b := Char.ext (UInt32.ext hab)
      simp only [Nat.lt_irrefl, if_neg, ite_false, hab] at h1 h2
      rw [ha, charListLe_antisymm as bs h1 h2]
    · simp_all [Nat.lt_asymm hab]

/-- The sorting relation used throughout: `strLe` as a proposition. -/
def StrLeRel (a b : String) : Prop := strLe a b = true

instance : DecidableRel StrLeRel := fun a b => by
  unfold StrLeRel
  infer_instance

instance : IsTotal String StrLeRel :=
  ⟨fun a b => charListLe_total a.data b.data⟩

instance : IsTrans String StrLeRel :=
  ⟨fun a b c h1 h2 => charListLe_trans a.data b.data c.data h1 h2⟩

instance : IsAntisymm String StrLeRel := by
  constructor
  intro a b h1 h2
  have := charListLe_antisymm a.data b.data h1 h2
  cases a; cases b; simp_all

/-- Sort a list of strings lexicographically. -/
def sortStrings (l : List String) : List String :=
  List.insertionSort StrLeRel l

/-- The key-comparison relation on association-list entries. -/
def keyLe {α : Type} (a b : String × α) : Prop := StrLeRel a.1 b.1

instance {α : Type} : DecidableRel (keyLe (α := α)) := fun a b => by
  unfold keyLe
  infer_instance

/-- Sort an association list by key, lexicographically. -/
def sortByKey {α : Type} (l : List (String × α)) : List (String × α) :=
  List.insertionSort keyLe l

/-- JSON string quoting (no escaping needed for the modelled inputs). -/
def jsonStr (s : String) : String := "\"" ++ s ++ "\""

/-- JSON rendering of an optional string list; a Go nil slice renders as
`null`. -/
def jsonStrList : Option (List String) → String
  | none => "null"
  | some l => "[" ++ String.intercalate "," (l.map jsonStr) ++ "]"

/-- JSON rendering of a boolean. -/
def jsonBool (b : Bool) : String := if b then "true" else "false"

/-- JSON rendering of a scalar attribute value. -/
def renderScalar : Scalar → String
  | .s v => jsonStr v
  | .i v => toString v
  | .b v => jsonBool v

/-- JSON rendering of an attribute value. -/
def renderAttrValue : AttrValue → String
  | .sc v => renderScalar v
  | .arr vs => "[" ++ String.intercalate "," (vs.map renderScalar) ++ "]"

/-- JSON rendering of an attribute set: keys sorted lexicographically,
rendered as an object. -/
def renderAttrSet (s : AttributeSet) : String :=
  "\x7b" ++
    String.intercalate ","
      ((sortByKey s).map (fun kv => jsonStr kv.1 ++ ":" ++ renderAttrValue kv.2)) ++
    "\x7d"

/-- JSON rendering of `LinkAttributes`, field order as in the source test. -/
def renderLink (l : LinkAttributes) : String :=
  "\x7b\"registryHint\":" ++ jsonStr l.registryHint ++
    ",\"namespaceHint\":" ++ jsonStr l.namespaceHint ++
    ",\"transitive\":" ++ jsonBool l.transitive ++ "\x7d"

/-- JSON rendering of `Component`, field order as in the source test. -/
def renderComponent (c : Component) : String :=
  "\x7b\"id\":" ++ jsonStr c.id ++
    ",\"name\":" ++ jsonStr c.name ++
    ",\"version\":" ++ jsonStr c.version ++
    ",\"type\":" ++ jsonStr c.type ++
    ",\"foundBy\":" ++ jsonStr c.foundBy ++
    ",\"locations\":" ++ jsonStrList c.locations ++
    ",\"licenses\":" ++ jsonStrList c.licenses ++
    ",\"language\":" ++ jsonStr c.language ++
    ",\"cpes\":" ++ jsonStrList c.cpes ++
    ",\"purl\":" ++ jsonStr c.purl ++ "\x7d"

/-- Modelled from the spec: the `Properties.MarshalJSON` implementation is
not under `src/` (only its test is), so the entry list it emits is modelled
from the spec's serialization contract: the key `core-descriptor` first,
then `core-link`, then each entry of the `others` mapping sorted
lexicographically by name; absent link or descriptor attributes emit their
zero-value objects. -/
def Properties.marshalEntries (p : Properties) : List (String × String) :=
  ("core-descriptor", renderComponent (p.descriptor.getD zeroComponent)) ::
  ("core-link", renderLink (p.link.getD zeroLink)) ::
  (sortByKey p.others).map (fun kv => (kv.1, renderAttrSet kv.2))

/-- Modelled from the spec: full `MarshalJSON` output as a JSON object
string over `Properties.marshalEntries`. -/
def Properties.marshalJSON (p : Properties) : String :=
  "\x7b" ++
    String.intercalate ","
      ((p.marshalEntries).map (fun kv => jsonStr kv.1 ++ ":" ++ kv.2)) ++
    "\x7d"

/-- The `Properties` value constructed by `TestProperties_MarshalJSON`. -/
def testProperties : Properties :=
  { link := some { registryHint := "test", namespaceHint := "namespace", transitive := false }
    descriptor := some { zeroComponent with id := "id" }
    others := [("test", [("name", .sc (.s "test")), ("size", .sc (.i 2))])] }

set_option maxRecDepth 20000 in
/-- The serialization model reproduces the exact expected JSON of the source
test `TestProperties_MarshalJSON`. -/
theorem testProperties_marshalJSON_eq :
    testProperties.marshalJSON =
      "\x7b\"core-descriptor\":\x7b\"id\":\"id\",\"name\":\"\",\"version\":\"\",\"type\":\"\",\"foundBy\":\"\",\"locations\":null,\"licenses\":null,\"language\":\"\",\"cpes\":null,\"purl\":\"\"\x7d,\"core-link\":\x7b\"registryHint\":\"test\",\"namespaceHint\":\"namespace\",\"transitive\":false\x7d,\"test\":\x7b\"name\":\"test\",\"size\":2\x7d\x7d" := by
  rfl

theorem map_fst_orderedInsert {α : Type} (a : String × α) (l : List (String × α)) :
    (List.orderedInsert keyLe a l).map Prod.fst =
      List.orderedInsert StrLeRel a.1 (l.map Prod.fst) := by
  induction l with
  | nil => rfl
  | cons b t ih =>
    by_cases h : keyLe a b
    · simp [List.orderedInsert, h, keyLe] at *
      simp [h]
    · have h' : ¬ StrLeRel a.1 b.1 := h
      simp [List.orderedInsert, h, h', ih]

theorem map_fst_sortByKey {α : Type} (l : List (String × α)) :
    (sortByKey l).map Prod.fst = sortStrings (l.map Prod.fst) := by
  induction l with
  | nil => rfl
  | cons a t ih =>
    simp [sortByKey, sortStrings, List.insertionSort] at *
    rw [map_fst_orderedInsert, ih]

/-- C1: for every `Properties` value the serialization emits keys in the
fixed order `core-descriptor`, `core-link`, then the entries of the `others`
mapping sorted lexicographically by name, and an absent link or descriptor
attribute set is still emitted as its zero-value object rather than
omitted. -/
theorem properties_marshal_key_order (p : Properties) :
    p.marshalEntries.map Prod.fst =
      "core-descriptor" :: "core-link" :: sortStrings (p.others.map Prod.fst) ∧
    List.Sorted StrLeRel (sortStrings (p.others.map Prod.fst)) ∧
    (sortStrings (p.others.map Prod.fst)).Perm (p.others.map Prod.fst) ∧
    (p.link = none →
      p.marshalEntries.lookup "core-link" = some (renderLink zeroLink)) ∧
    (p.descriptor = none →
      p.marshalEntries.lookup "core-descriptor" = some (renderComponent zeroComponent)) := by
  refine ⟨?_, ?_, ?_, ?_, ?_⟩
  · simp only [Properties.marshalEntries, List.map_cons, List.map_map]
    have hcomp : (Prod.fst ∘ fun kv : String × AttributeSet => (kv.1, renderAttrSet kv.2)) =
        Prod.fst := rfl
    rw [hcomp, map_fst_sortByKey]
  · exact List.sorted_insertionSort _ _
  · exact List.perm_insertionSort _ _
  · intro h
    simp [Properties.marshalEntries, List.lookup, h]
  · intro h
    simp [Properties.marshalEntries, List.lookup, h]

/-- Evaluation of the C1 key-order theorem at a `Properties` value whose
link and descriptor attributes are both absent. -/
theorem properties_marshal_key_order_witness :
    Properties.empty.marshalEntries.map Prod.fst = ["core-descriptor", "core-link"] ∧
    Properties.empty.marshalEntries.lookup "core-link" = some (renderLink zeroLink) ∧
    Properties.empty.marshalEntries.lookup "core-descriptor" =
      some (renderComponent zeroComponent) :=
  ⟨by simpa using (properties_marshal_key_order Properties.empty).1,
   (properties_marshal_key_order Properties.empty).2.2.2.1 rfl,
   (properties_marshal_key_order Properties.empty).2.2.2.2 rfl⟩

/-- A Go `interface{}` value that a parser can extract as a template
candidate: the closed set of scalar kinds the parsers produce. -/
inductive Value where
  | str (s : String)
  | int (i : Int)
  | bool (b : Bool)
  | null
deriving DecidableEq

/-- The template-replacement predicate `tFunc` of `BuildOptions.Run`
(`cli/build.go`): a candidate value is treated as a link exactly when it is
a string found in the workspace file index. -/
def tFunc (fileIndex : List String) (value : Value) : Bool :=
  match value with
  | .str s => fileIndex.contains s
  | _ => false

/-- C2: a template candidate value is treated as a real link if and only if
it is a string and the string is a member of the workspace file index; no
other kind of value is ever treated as a link. -/
theorem tFunc_iff_string_in_index (fileIndex : List String) (value : Value) :
    tFunc fileIndex value = true ↔ ∃ s, value = .str s ∧ s ∈ fileIndex := by
  cases value <;> simp [tFunc]

/-- The subset of `BuildOptions` fields relevant to `Complete`/`Validate`
(`cli/build.go`). -/
structure BuildOptions where
  destination : String
  rootDir : String
  insecure : Bool
  plainHTTP : Bool
  configs : List String
  output : String
  push : Bool
deriving DecidableEq

/-- `BuildOptions.Complete` from `cli/build.go`: requires at least one
positional argument, stores the first as the workspace root, and defaults
the output directory to `client-workspace` when unset. -/
def BuildOptions.Complete (o : BuildOptions) (args : List String) :
    Except String BuildOptions :=
  match args with
  | [] => .error "bug: expecting one argument"
  | a :: _ =>
    .ok { o with
          rootDir := a,
          output := if o.output = "" then "client-workspace" else o.output }

/-- C9: with at least one argument `Complete` succeeds, sets `RootDir` to
the first argument, keeps a non-empty `Output` and defaults an empty
`Output` to `client-workspace`; it errors exactly on the empty argument
list. -/
theorem buildOptions_complete_spec (o : BuildOptions) (a : String) (rest : List String) :
    (∃ o', o.Complete (a :: rest) = .ok o' ∧
      o'.rootDir = a ∧
      (o.output ≠ "" → o'.output = o.output) ∧
      (o.output = "" → o'.output = "client-workspace") ∧
      o'.destination = o.destination ∧ o'.push = o.push ∧
      o'.insecure = o.insecure ∧ o'.plainHTTP = o.plainHTTP ∧
      o'.configs = o.configs) ∧
    o.Complete [] = .error "bug: expecting one argument" := by
  refine ⟨⟨_, rfl, rfl, ?_, ?_, rfl, rfl, rfl, rfl, rfl⟩, rfl⟩
  · intro h; simp [h]
  · intro h; simp [h]

/-- `BuildOptions.Validate` from `cli/build.go`. The `os.Stat` call on the
workspace root is an external effect, modelled by the `stat` parameter
(`none` means the directory exists). -/
def BuildOptions.Validate (stat : String → Option String) (o : BuildOptions) :
    Option String :=
  match stat o.rootDir with
  | some e => some ("workspace directory " ++ o.rootDir ++ ": " ++ e)
  | none =>
    if o.push ∧ o.destination = "" then some "destination must be set when using --push"
    else none

/-- C10: `Validate` errors whenever `Push` is set and `Destination` is
empty, regardless of every other field and of the stat outcome; and with
`Push` unset an empty `Destination` alone never makes `Validate` fail. -/
theorem buildOptions_validate_spec (stat : String → Option String) (o : BuildOptions) :
    (o.push = true → o.destination = "" → ∃ e, o.Validate stat = some e) ∧
    (o.push = false → stat o.rootDir = none → o.Validate stat = none) := by
  constructor
  · intro hp hd
    unfold BuildOptions.Validate
    cases h : stat o.rootDir with
    | some e => exact ⟨_, rfl⟩
    | none =>
      exact ⟨"destination must be set when using --push", by simp [hp, hd]⟩
  · intro hp hs
    unfold BuildOptions.Validate
    simp [hs, hp]

/-- Evaluation of the C9 theorem at concrete inputs. -/
theorem buildOptions_complete_spec_witness :
    (∃ o', (BuildOptions.mk "" "" false false [] "" false).Complete ["dir"] = .ok o' ∧
      o'.rootDir = "dir" ∧
      ((BuildOptions.mk "" "" false false [] "" false).output ≠ "" → o'.output = "") ∧
      ((BuildOptions.mk "" "" false false [] "" false).output = "" →
        o'.output = "client-workspace") ∧
      o'.destination = "" ∧ o'.push = false ∧ o'.insecure = false ∧
      o'.plainHTTP = false ∧ o'.configs = []) ∧
    (BuildOptions.mk "" "" false false [] "" false).Complete [] =
      .error "bug: expecting one argument" :=
  buildOptions_complete_spec (BuildOptions.mk "" "" false false [] "" false) "dir" []

/-- Evaluation of the C10 theorem at concrete inputs: pushing with an empty
destination errors, and not pushing with an empty destination passes. -/
theorem buildOptions_validate_spec_witness :
    (∃ e, (BuildOptions.mk "" "w" false false [] "out" true).Validate (fun _ => none) = some e) ∧
    (BuildOptions.mk "" "w" false false [] "out" false).Validate (fun _ => none) = none :=
  ⟨(buildOptions_validate_spec (fun _ => none) (BuildOptions.mk "" "w" false false [] "out" true)).1
      rfl rfl,
   (buildOptions_validate_spec (fun _ => none) (BuildOptions.mk "" "w" false false [] "out" false)).2
      rfl rfl⟩

/-- A graph node: workspace-relative name, template content, extracted link
candidates, and descriptor metadata. -/
structure Node where
  name : String
  rawContent : String
  links : List (String × Value)
  properties : Properties
deriving DecidableEq

/-- `graph.NewNode`: a fresh node with zero-valued content and links. -/
def NewNode (name : String) : Node :=
  { name := name, rawContent := "", links := [], properties := Properties.empty }

/-- A directed edge: `src` depends on `dst`, with link attributes. -/
structure Edge where
  src : String
  dst : String
  props : LinkAttributes
deriving DecidableEq

/-- The content link graph: nodes keyed by name, and outgoing edges. Go's
maps become lists; map-iteration nondeterminism is captured by quantifying
over permutations of these lists. -/
structure Graph where
  nodes : List Node
  edges : List Edge
deriving DecidableEq

/-- `graph.NewGraph`: the empty graph. -/
def NewGraph : Graph := ⟨[], []⟩

/-- The list of node names of a graph. -/
def nodeNames (g : Graph) : List String := g.nodes.map Node.name

/-- Errors of the graph and resolution engine. -/
inductive GraphErr where
  | nodeNotFound (name : String)
  | selfReference (name : String)
  | duplicateNode (name : String)
  | cycleDetected (members : List String)
  | unresolvedDependency (name : String)
  | fuelExhausted
deriving DecidableEq

/-- Modelled from the spec: the graph package is not under src/ (only its
callers in cli/build.go are). `AddEdge(from, to, linkProps)` fails with
`ErrNodeNotFound` if either endpoint is absent, fails with
`ErrSelfReference` if `from == to`, and otherwise appends the edge, in the
order the spec lists those failure conditions. -/
def AddEdge (g : Graph) (src dst : String) (props : LinkAttributes) :
    Except GraphErr Graph :=
  if src ∉ nodeNames g then .error (.nodeNotFound src)
  else if dst ∉ nodeNames g then .error (.nodeNotFound dst)
  else if src = dst then .error (.selfReference src)
  else .ok { g with edges := g.edges ++ [⟨src, dst, props⟩] }

/-- The edge relation of a graph: some recorded edge goes from `a` to `b`. -/
def edgeOf (g : Graph) (a b : String) : Prop :=
  ∃ e ∈ g.edges, e.src = a ∧ e.dst = b

instance (g : Graph) (a b : String) : Decidable (edgeOf g a b) := by
  unfold edgeOf
  infer_instance

/-- A graph is acyclic when no node reaches itself through edges. -/
def Acyclic (g : Graph) : Prop :=
  ∀ n, ¬ Relation.TransGen (edgeOf g) n n

/-- Well-formedness maintained by graph construction: node names are unique
and every edge endpoint names a node. -/
def WFGraph (g : Graph) : Prop :=
  (nodeNames g).Nodup ∧ ∀ e ∈ g.edges, e.src ∈ nodeNames g ∧ e.dst ∈ nodeNames g

instance (g : Graph) : Decidable (WFGraph g) := by
  unfold WFGraph
  infer_instance

/-- The lexicographically sorted successors of a node, the deterministic
iteration order of the depth-first traversal. -/
def succs (g : Graph) (n : String) : List String :=
  sortStrings ((g.edges.filter (fun e => e.src == n)).map Edge.dst)

theorem mem_succs (g : Graph) (n b : String) : b ∈ succs g n ↔ edgeOf g n b := by
  unfold succs sortStrings edgeOf
  rw [(List.perm_insertionSort StrLeRel _).mem_iff]
  simp only [List.mem_map, List.mem_filter, beq_iff_eq]
  constructor
  · rintro ⟨e, ⟨he, hsrc⟩, hdst⟩
    exact ⟨e, he, hsrc, hdst⟩
  · rintro ⟨e, he, hsrc, hdst⟩
    exact ⟨e, ⟨he, hsrc⟩, hdst⟩

/-- Three-color marking of the depth-first traversal. -/
inductive Color where
  | white
  | gray
  | black
deriving DecidableEq

/-- State of the depth-first traversal: a color per name, the stack of
in-progress nodes (most recent first), and the postorder output. -/
structure VisitState where
  colors : String → Color
  stack : List String
  order : List String

/-- The initial traversal state: all nodes unvisited. -/
def initState : VisitState := ⟨fun _ => .white, [], []⟩

/-- Modelled from the spec: the graph package's `TopologicalOrder` is not
under src/; the spec prescribes depth-first traversal with three-color
marking, failure with `ErrCycleDetected` naming the cycle members when an
in-progress node is re-entered, and lexicographic iteration order for
determinism. `visit` processes one node: a black node is skipped, a gray
node reports the cycle made of the in-progress stack up to its earlier
occurrence, and a white node is marked in-progress, its successors visited
in sorted order, and then appended to the postorder output. Fuel bounds the
recursion depth; `TopologicalOrder` supplies enough fuel that it is never
exhausted. -/
def visit (g : Graph) : Nat → VisitState → String → Except GraphErr VisitState
  | 0, _, _ => .error .fuelExhausted
  | fuel + 1, st, n =>
    match st.colors n with
    | .black => .ok st
    | .gray => .error (.cycleDetected (n :: (st.stack.takeWhile (fun m => m != n)).reverse))
    | .white =>
      match List.foldlM (visit g fuel)
          ⟨fun m => if m = n then .gray else st.colors m, n :: st.stack, st.order⟩
          (succs g n) with
      | .error e => .error e
      | .ok st2 =>
        .ok ⟨fun m => if m = n then .black else st2.colors m, st.stack, st2.order ++ [n]⟩

/-- Modelled from the spec: `TopologicalOrder` visits all nodes in
lexicographic name order and returns the postorder sequence, in which every
node appears after its dependencies. -/
def TopologicalOrder (g : Graph) : Except GraphErr (List String) :=
  (List.foldlM (visit g ((nodeNames g).length + 1)) initState
      (sortStrings (nodeNames g))).map VisitState.order

/-- Index of a string in a list (length of the list if absent). -/
def idxOf : List String → String → Nat
  | [], _ => 0
  | x :: xs, a => if x = a then 0 else idxOf xs a + 1

theorem idxOf_append_lt (l1 l2 : List String) (b : String) (hb : b ∈ l1) :
    idxOf (l1 ++ l2) b < l1.length := by
  induction l1 with
  | nil => cases hb
  | cons x xs ih =>
    by_cases hx : x = b
    · simp [idxOf, hx]
    · have hb' : b ∈ xs := by
        cases hb with
        | head => exact absurd rfl hx
        | tail _ h => exact h
      simp only [List.cons_append, idxOf, hx, if_false, List.length_cons]
      exact Nat.succ_lt_succ (ih hb')

theorem idxOf_append_self (l1 l2 : List String) (a : String) (ha : a ∉ l1) :
    idxOf (l1 ++ a :: l2) a = l1.length := by
  induction l1 with
  | nil => simp [idxOf]
  | cons x xs ih =>
    have hx : x ≠ a := fun h => ha (h ▸ List.mem_cons_self x xs)
    have ha' : a ∉ xs := fun h => ha (List.mem_cons_of_mem x h)
    simp [idxOf, hx, ih ha']

/-- An output prefix is dependency-closed: every element's successors
appear strictly earlier in the list. -/
def GoodOrder (g : Graph) (l : List String) : Prop :=
  ∀ l1 a l2, l = l1 ++ a :: l2 → ∀ b, edgeOf g a b → b ∈ l1

theorem goodOrder_nil (g : Graph) : GoodOrder g [] := by
  intro l1 a l2 h
  exact absurd h (by simp)

theorem goodOrder_append_singleton {g : Graph} {l : List String} {n : String}
    (h : GoodOrder g l) (hn : ∀ b, edgeOf g n b → b ∈ l) :
    GoodOrder g (l ++ [n]) := by
  intro l1 a l2 heq b hedge
  cases l2 with
  | nil =>
    have hlen : l1.length = l.length := by
      have := congrArg List.length heq
      simp at this
      omega
    have : l1 = l ∧ [a] = [n] := by
      constructor
      · exact List.append_inj_left' heq.symm (by simp)
      · exact List.append_inj_right' heq.symm rfl
    obtain ⟨hl, han⟩ := this
    cases han
    subst hl
    exact hn b hedge
  | cons c cs =>
    have hne : (c :: cs : List String) ≠ [] := by simp
    obtain ⟨mid, last, hsplit⟩ : ∃ mid last, (c :: cs : List String) = mid ++ [last] := by
      refine ⟨(c :: cs).dropLast, (c :: cs).getLast hne, ?_⟩
      exact (List.dropLast_append_getLast hne).symm
    rw [hsplit] at heq
    have heq2 : (l1 ++ a :: mid) ++ [last] = l ++ [n] := by
      simpa [List.append_assoc] using heq.symm
    have hl : l1 ++ a :: mid = l := List.append_inj_left' heq2 (by simp)
    exact h l1 a mid hl.symm b hedge

theorem goodOrder_idx {g : Graph} {l : List String} {a b : String}
    (h : GoodOrder g l) (hnd : l.Nodup) (ha : a ∈ l) (he : edgeOf g a b) :
    b ∈ l ∧ idxOf l b < idxOf l a := by
  obtain ⟨l1, l2, hsplit⟩ := List.append_of_mem ha
  have hb : b ∈ l1 := h l1 a l2 hsplit b he
  have hanotin : a ∉ l1 := by
    rw [hsplit] at hnd
    have := List.disjoint_of_nodup_append hnd
    intro hmem
    exact this hmem (List.mem_cons_self a l2)
  constructor
  · rw [hsplit]
    exact List.mem_append_left _ hb
  · rw [hsplit, idxOf_append_self l1 l2 a hanotin]
    exact idxOf_append_lt l1 (a :: l2) b hb

theorem goodOrder_transGen {g : Graph} {l : List String} {a b : String}
    (h : GoodOrder g l) (hnd : l.Nodup) (ht : Relation.TransGen (edgeOf g) a b)
    (ha : a ∈ l) : b ∈ l ∧ idxOf l b < idxOf l a := by
  induction ht with
  | single he => exact goodOrder_idx h hnd ha he
  | tail _ he ih =>
    obtain ⟨hc, hidx⟩ := ih
    obtain ⟨hb, hidx2⟩ := goodOrder_idx h hnd hc he
    exact ⟨hb, Nat.lt_trans hidx2 hidx⟩

/-- A nonempty list whose consecutive elements are edges and whose last
element has an edge back to its head: a genuine cycle of the graph. -/
def IsCycle (g : Graph) (c : List String) : Prop :=
  c ≠ [] ∧ List.Chain' (edgeOf g) c ∧
    ∀ a b, c.getLast? = some a → c.head? = some b → edgeOf g a b

theorem chain'_reflTransGen {r : String → String → Prop} :
    ∀ (l : List String) (_ : List.Chain' r l) (h : l ≠ []),
      Relation.ReflTransGen r (l.head h) (l.getLast h)
  | [], _, h => absurd rfl h
  | [a], _, _ => Relation.ReflTransGen.refl
  | a :: b :: t, hc, _ => by
    have h1 : r a b := (List.chain'_cons.mp hc).1
    have h2 := chain'_reflTransGen (b :: t) (List.chain'_cons.mp hc).2 (by simp)
    have hlast : (a :: b :: t).getLast (by simp) = (b :: t).getLast (by simp) := by
      simp [List.getLast_cons]
    rw [List.head_cons, hlast]
    exact Relation.ReflTransGen.head h1 h2

theorem isCycle_transGen {g : Graph} {c : List String} (h : IsCycle g c) :
    ∃ n, Relation.TransGen (edgeOf g) n n := by
  obtain ⟨hne, hchain, hclose⟩ := h
  refine ⟨c.head hne, ?_⟩
  have h1 : Relation.ReflTransGen (edgeOf g) (c.head hne) (c.getLast hne) :=
    chain'_reflTransGen c hchain hne
  have h2 : edgeOf g (c.getLast hne) (c.head hne) :=
    hclose _ _ (List.getLast?_eq_getLast c hne) (List.head?_eq_head hne)
  exact Relation.TransGen.tail' h1 h2

theorem takeWhile_split {l : List String} {n : String} (hn : n ∈ l) :
    ∃ post, l = l.takeWhile (fun m => m != n) ++ n :: post ∧
      n ∉ l.takeWhile (fun m => m != n) := by
  induction l with
  | nil => cases hn
  | cons a t ih =>
    by_cases ha : a = n
    · subst ha
      refine ⟨t, ?_, ?_⟩ <;> simp [List.takeWhile]
    · have hbne : (a != n) = true := bne_iff_ne.mpr ha
      have hn' : n ∈ t := by
        cases hn with
        | head => exact absurd rfl ha
        | tail _ h => exact h
      obtain ⟨post, heq, hnotin⟩ := ih hn'
      refine ⟨post, ?_, ?_⟩
      · simp only [List.takeWhile, hbne, List.cons_append]
        rw [← heq]
      · simp only [List.takeWhile, hbne]
        intro hmem
        cases hmem with
        | head => exact ha rfl
        | tail _ h => exact hnotin h

/-- Invariant of the traversal state: colors agree with the stack (gray)
and the output (black), both are duplicate-free lists of graph nodes, the
stack is an edge-chain (each deeper entry has an edge to the entry above),
and the output is dependency-closed. -/
structure StInv (g : Graph) (st : VisitState) : Prop where
  gray_iff : ∀ m, st.colors m = .gray ↔ m ∈ st.stack
  black_iff : ∀ m, st.colors m = .black ↔ m ∈ st.order
  stack_nodup : st.stack.Nodup
  order_nodup : st.order.Nodup
  stack_sub : ∀ m ∈ st.stack, m ∈ nodeNames g
  order_sub : ∀ m ∈ st.order, m ∈ nodeNames g
  stack_chain : List.Chain' (fun a b => edgeOf g b a) st.stack
  good : GoodOrder g st.order

/-- What a successful visit guarantees relative to its entry state. -/
structure VisitPost (st st' : VisitState) : Prop where
  stack_eq : st'.stack = st.stack
  black_mono : ∀ m, st.colors m = .black → st'.colors m = .black
  white_mono : ∀ m, st'.colors m = .white → st.colors m = .white
  order_ext : ∃ ext, st'.order = st.order ++ ext

theorem visitPost_refl (st : VisitState) : VisitPost st st :=
  ⟨rfl, fun _ h => h, fun _ h => h, ⟨[], by simp⟩⟩

theorem visitPost_trans {s1 s2 s3 : VisitState} (h1 : VisitPost s1 s2)
    (h2 : VisitPost s2 s3) : VisitPost s1 s3 := by
  refine ⟨h2.stack_eq.trans h1.stack_eq, fun m hm => h2.black_mono m (h1.black_mono m hm),
    fun m hm => h1.white_mono m (h2.white_mono m hm), ?_⟩
  obtain ⟨e1, he1⟩ := h1.order_ext
  obtain ⟨e2, he2⟩ := h2.order_ext
  exact ⟨e1 ++ e2, by rw [he2, he1, List.append_assoc]⟩

/-- Number of unvisited graph nodes. -/
def whiteCount (g : Graph) (st : VisitState) : Nat :=
  ((nodeNames g).filter (fun m => st.colors m = Color.white)).length

theorem length_filter_le_of_imp {α : Type} (l : List α) (p q : α → Bool)
    (h : ∀ m, q m = true → p m = true) :
    (l.filter q).length ≤ (l.filter p).length := by
  induction l with
  | nil => exact Nat.le_refl 0
  | cons a t ih =>
    simp only [List.filter_cons]
    by_cases hq : q a = true
    · simp only [hq, if_true, h a hq, List.length_cons]
      exact Nat.succ_le_succ ih
    · simp only [Bool.not_eq_true] at hq
      simp only [hq, Bool.false_eq_true, if_false]
      by_cases hp : p a = true
      · simp only [hp, if_true, List.length_cons]
        exact Nat.le_succ_of_le ih
      · simp only [Bool.not_eq_true] at hp
        simp only [hp, Bool.false_eq_true, if_false]
        exact ih

theorem length_filter_update {α : Type} [DecidableEq α] (l : List α) (n : α)
    (p q : α → Bool) (hnd : l.Nodup) (hn : n ∈ l) (hpn : p n = true) (hqn : q n = false)
    (hagree : ∀ m, m ≠ n → q m = p m) :
    (l.filter q).length + 1 = (l.filter p).length := by
  induction l with
  | nil => cases hn
  | cons a t ih =>
    have hndt : t.Nodup := (List.nodup_cons.mp hnd).2
    simp only [List.filter_cons]
    by_cases ha : a = n
    · subst ha
      have hat : a ∉ t := (List.nodup_cons.mp hnd).1
      have hfilter : t.filter q = t.filter p := by
        apply List.filter_congr
        intro m hm
        exact hagree m (fun h => hat (h ▸ hm))
      simp only [hpn, hqn, if_true, Bool.false_eq_true, if_false, hfilter, List.length_cons]
    · have hn' : n ∈ t := by
        cases hn with
        | head => exact absurd rfl ha
        | tail _ h => exact h
      have hqa : q a = p a := hagree a ha
      by_cases hp : p a = true
      · simp only [hp, hqa ▸ hp, if_true, List.length_cons]
        rw [← ih hndt hn']
      · simp only [Bool.not_eq_true] at hp
        simp only [hp, hqa ▸ hp, Bool.false_eq_true, if_false]
        exact ih hndt hn'

theorem whiteCount_pos {g : Graph} {st : VisitState} {n : String}
    (hn : n ∈ nodeNames g) (hw : st.colors n = .white) : 0 < whiteCount g st := by
  unfold whiteCount
  have : n ∈ (nodeNames g).filter (fun m => st.colors m = Color.white) :=
    List.mem_filter.mpr ⟨hn, by simp [hw]⟩
  exact List.length_pos.mpr (fun h => by simp [h] at this)

theorem foldlM_except_cons {σ α ε : Type} (f : σ → α → Except ε σ) (s : σ) (a : α)
    (l : List α) :
    List.foldlM f s (a :: l) =
      match f s a with
      | .error e => .error e
      | .ok s' => List.foldlM f s' l := by
  simp only [List.foldlM]
  cases h : f s a with
  | error e => rfl
  | ok s2 => rfl

theorem foldlM_except_nil {σ α ε : Type} (f : σ → α → Except ε σ) (s : σ) :
    List.foldlM f s [] = .ok s := rfl

theorem whiteCount_mono {g : Graph} {st st' : VisitState}
    (h : ∀ m, st'.colors m = .white → st.colors m = .white) :
    whiteCount g st' ≤ whiteCount g st := by
  apply length_filter_le_of_imp
  intro m hm
  have := h m (of_decide_eq_true hm)
  simp [this]

theorem visitList_master (g : Graph) (_hwf : WFGraph g) (fuel : Nat)
    (hvisit : ∀ st n, StInv g st → n ∈ nodeNames g →
      (∀ p, st.stack.head? = some p → edgeOf g p n) →
      whiteCount g st < fuel →
      (∃ st', visit g fuel st n = .ok st' ∧ VisitPost st st' ∧ StInv g st' ∧
        st'.colors n = .black) ∨
      (∃ c, visit g fuel st n = .error (.cycleDetected c) ∧ IsCycle g c)) :
    ∀ l st, StInv g st → (∀ x ∈ l, x ∈ nodeNames g) →
      (∀ x ∈ l, ∀ p, st.stack.head? = some p → edgeOf g p x) →
      whiteCount g st < fuel →
      (∃ st', List.foldlM (visit g fuel) st l = .ok st' ∧ VisitPost st st' ∧ StInv g st' ∧
        ∀ x ∈ l, st'.colors x = .black) ∨
      (∃ c, List.foldlM (visit g fuel) st l = .error (.cycleDetected c) ∧ IsCycle g c) := by
  intro l
  induction l with
  | nil =>
    intro st hinv _ _ _
    exact Or.inl ⟨st, rfl, visitPost_refl st, hinv, by simp⟩
  | cons x xs ih =>
    intro st hinv hmem hhead hfuel
    rw [foldlM_except_cons]
    rcases hvisit st x hinv (hmem x (List.mem_cons_self x xs))
        (hhead x (List.mem_cons_self x xs)) hfuel with
      ⟨st1, hok, hpost1, hinv1, hblack1⟩ | ⟨c, herr, hcyc⟩
    · rw [hok]
      have hwc1 : whiteCount g st1 ≤ whiteCount g st := whiteCount_mono hpost1.white_mono
      have hhead1 : ∀ y ∈ xs, ∀ p, st1.stack.head? = some p → edgeOf g p y := by
        intro y hy p hp
        rw [hpost1.stack_eq] at hp
        exact hhead y (List.mem_cons_of_mem x hy) p hp
      rcases ih st1 hinv1 (fun y hy => hmem y (List.mem_cons_of_mem x hy)) hhead1
          (Nat.lt_of_le_of_lt hwc1 hfuel) with
        ⟨st2, hok2, hpost2, hinv2, hblack2⟩ | ⟨c, herr2, hcyc2⟩
      · refine Or.inl ⟨st2, hok2, visitPost_trans hpost1 hpost2, hinv2, ?_⟩
        intro y hy
        cases hy with
        | head => exact hpost2.black_mono x hblack1
        | tail _ h => exact hblack2 y h
      · exact Or.inr ⟨c, herr2, hcyc2⟩
    · rw [herr]
      exact Or.inr ⟨c, rfl, hcyc⟩

theorem visit_master (g : Graph) (hwf : WFGraph g) :
    ∀ fuel st n, StInv g st → n ∈ nodeNames g →
      (∀ p, st.stack.head? = some p → edgeOf g p n) →
      whiteCount g st < fuel →
      (∃ st', visit g fuel st n = .ok st' ∧ VisitPost st st' ∧ StInv g st' ∧
        st'.colors n = .black) ∨
      (∃ c, visit g fuel st n = .error (.cycleDetected c) ∧ IsCycle g c) := by
  intro fuel
  induction fuel with
  | zero =>
    intro st n _ _ _ hfuel
    exact absurd hfuel (Nat.not_lt_zero _)
  | succ fuel ih =>
    intro st n hinv hn hedge hfuel
    cases hcol : st.colors n with
    | black =>
      exact Or.inl ⟨st, by simp [visit, hcol], visitPost_refl st, hinv, hcol⟩
    | gray =>
      refine Or.inr ⟨n :: (st.stack.takeWhile (fun m => m != n)).reverse,
        by simp [visit, hcol], ?_⟩
      have hnstack : n ∈ st.stack := (hinv.gray_iff n).mp hcol
      obtain ⟨post, hsplit, hpre⟩ := takeWhile_split hnstack
      refine ⟨by simp, ?_, ?_⟩
      · have hrev : (n :: (st.stack.takeWhile (fun m => m != n)).reverse) =
            ((st.stack.takeWhile (fun m => m != n)) ++ [n]).reverse := by simp
        rw [hrev, List.chain'_reverse]
        have hchain := hinv.stack_chain
        rw [hsplit] at hchain
        obtain ⟨hc1, hc2, hc3⟩ := List.chain'_append.mp hchain
        refine List.chain'_append.mpr ⟨hc1, by simp, ?_⟩
        intro a ha y hy
        simp only [List.head?_cons, Option.mem_def, Option.some.injEq] at hy
        subst hy
        exact hc3 a ha n (by simp)
      · intro a b hlast hhead
        simp only [List.head?_cons, Option.mem_def, Option.some.injEq] at hhead
        subst hhead
        cases hpretail : st.stack.takeWhile (fun m => m != n) with
        | nil =>
          rw [hpretail] at hlast hsplit
          simp only [List.reverse_nil, List.getLast?_singleton, Option.some.injEq] at hlast
          subst hlast
          apply hedge
          rw [hsplit]
          rfl
        | cons p pres =>
          rw [hpretail] at hlast hsplit
          have : (n :: (p :: pres).reverse).getLast? = some p := by
            have hrw : n :: (p :: pres).reverse = (n :: pres.reverse) ++ [p] := by
              simp
            rw [hrw, List.getLast?_concat]
          rw [this] at hlast
          cases hlast
          apply hedge
          rw [hsplit]
          rfl
    | white =>
      have hnotstack : n ∉ st.stack := by
        intro hmem
        have := (hinv.gray_iff n).mpr hmem
        rw [hcol] at this
        cases this
      have hnotorder : n ∉ st.order := by
        intro hmem
        have := (hinv.black_iff n).mpr hmem
        rw [hcol] at this
        cases this
      have hinv1 : StInv g
          ⟨fun m => if m = n then .gray else st.colors m, n :: st.stack, st.order⟩ := by
        refine ⟨?_, ?_, ?_, hinv.order_nodup, ?_, hinv.order_sub, ?_, hinv.good⟩
        · intro m
          by_cases hm : m = n
          · subst hm
            simp
          · simp only [hm, if_false]
            rw [hinv.gray_iff m]
            simp [hm]
        · intro m
          by_cases hm : m = n
          · subst hm
            simp only [if_true, reduceIte]
            constructor
            · intro h; cases h
            · intro h; exact absurd h hnotorder
          · simp only [hm, if_false]
            exact hinv.black_iff m
        · exact List.nodup_cons.mpr ⟨hnotstack, hinv.stack_nodup⟩
        · intro m hm
          cases hm with
          | head => exact hn
          | tail _ h => exact hinv.stack_sub m h
        · refine List.chain'_cons'.mpr ⟨?_, hinv.stack_chain⟩
          intro y hy
          exact hedge y hy
      have hwcdec : whiteCount g
          ⟨fun m => if m = n then .gray else st.colors m, n :: st.stack, st.order⟩ + 1 =
          whiteCount g st := by
        apply length_filter_update (nodeNames g) n _ _ hwf.1 hn
        · simp [hcol]
        · simp
        · intro m hm
          simp [hm]
      have hsuccmem : ∀ x ∈ succs g n, x ∈ nodeNames g := by
        intro x hx
        obtain ⟨e, he, _, hdst⟩ := (mem_succs g n x).mp hx
        exact hdst ▸ (hwf.2 e he).2
      have hsuccedge : ∀ x ∈ succs g n, ∀ p,
          (⟨fun m => if m = n then .gray else st.colors m, n :: st.stack,
            st.order⟩ : VisitState).stack.head? = some p → edgeOf g p x := by
        intro x hx p hp
        simp only [List.head?_cons, Option.some.injEq] at hp
        subst hp
        exact (mem_succs g n x).mp hx
      have hwc1 : whiteCount g
          ⟨fun m => if m = n then .gray else st.colors m, n :: st.stack, st.order⟩ < fuel := by
        omega
      rcases visitList_master g hwf fuel ih (succs g n)
          ⟨fun m => if m = n then .gray else st.colors m, n :: st.stack, st.order⟩
          hinv1 hsuccmem hsuccedge hwc1 with
        ⟨st2, hok2, hpost2, hinv2, hblacks⟩ | ⟨c, herr2, hcyc2⟩
      · have hstack2 : st2.stack = n :: st.stack := hpost2.stack_eq
        have hgray2 : st2.colors n = .gray := by
          apply (hinv2.gray_iff n).mpr
          rw [hstack2]
          exact List.mem_cons_self n st.stack
        have hnotorder2 : n ∉ st2.order := by
          intro hmem
          have := (hinv2.black_iff n).mpr hmem
          rw [hgray2] at this
          cases this
        obtain ⟨ext, hext⟩ := hpost2.order_ext
        refine Or.inl ⟨⟨fun m => if m = n then .black else st2.colors m, st.stack,
          st2.order ++ [n]⟩, by simp [visit, hcol, hok2], ?_, ?_, by simp⟩
        · refine ⟨rfl, ?_, ?_, ?_⟩
          · intro m hm
            have hmn : m ≠ n := by
              intro h
              rw [h, hcol] at hm
              cases hm
            simp only [hmn, if_false]
            apply hpost2.black_mono
            simp only [hmn, if_false]
            exact hm
          · intro m hm
            simp only at hm
            by_cases hmn : m = n
            · rw [hmn] at hm
              simp at hm
            · simp only [hmn, if_false] at hm
              have := hpost2.white_mono m hm
              simp only [hmn, if_false] at this
              exact this
          · exact ⟨ext ++ [n], by simp only at hext ⊢; rw [hext, List.append_assoc]⟩
        · refine ⟨?_, ?_, hinv.stack_nodup, ?_, hinv.stack_sub, ?_, hinv.stack_chain, ?_⟩
          · intro m
            by_cases hm : m = n
            · subst hm
              simp only [if_true, reduceIte]
              constructor
              · intro h; cases h
              · intro h; exact absurd h hnotstack
            · simp only [hm, if_false]
              rw [hinv2.gray_iff m, hstack2]
              simp [hm]
          · intro m
            by_cases hm : m = n
            · subst hm
              simp
            · simp only [hm, if_false]
              rw [hinv2.black_iff m]
              simp [hm]
          · simp only
            exact (List.nodup_append.mpr ⟨hinv2.order_nodup, List.nodup_singleton n,
              by simp [List.disjoint_singleton, hnotorder2]⟩)
          · intro m hm
            simp only [List.mem_append, List.mem_singleton] at hm
            cases hm with
            | inl h => exact hinv2.order_sub m h
            | inr h => exact h ▸ hn
          · apply goodOrder_append_singleton hinv2.good
            intro b hb
            apply (hinv2.black_iff b).mp
            exact hblacks b ((mem_succs g n b).mpr hb)
      · exact Or.inr ⟨c, by simp [visit, hcol, herr2], hcyc2⟩

theorem initState_inv (g : Graph) : StInv g initState := by
  refine ⟨?_, ?_, List.nodup_nil, List.nodup_nil, ?_, ?_, List.chain'_nil, goodOrder_nil g⟩
  · intro m
    simp [initState]
  · intro m
    simp [initState]
  · intro m hm
    cases hm
  · intro m hm
    cases hm

theorem topo_run (g : Graph) (hwf : WFGraph g) :
    (∃ l, TopologicalOrder g = .ok l ∧ l.Perm (nodeNames g) ∧ l.Nodup ∧ GoodOrder g l) ∨
    (∃ c, TopologicalOrder g = .error (.cycleDetected c) ∧ IsCycle g c) := by
  have hwc : whiteCount g initState < (nodeNames g).length + 1 := by
    unfold whiteCount
    have hfil : (nodeNames g).filter (fun m => initState.colors m = Color.white) =
        nodeNames g := by
      apply List.filter_eq_self.mpr
      intro m _
      simp [initState]
    rw [hfil]
    omega
  have hmem : ∀ x ∈ sortStrings (nodeNames g), x ∈ nodeNames g := by
    intro x hx
    exact (List.perm_insertionSort StrLeRel _).mem_iff.mp hx
  have hhead : ∀ x ∈ sortStrings (nodeNames g), ∀ p,
      initState.stack.head? = some p → edgeOf g p x := by
    intro x _ p hp
    simp [initState] at hp
  rcases visitList_master g hwf ((nodeNames g).length + 1)
      (visit_master g hwf ((nodeNames g).length + 1)) (sortStrings (nodeNames g)) initState
      (initState_inv g) hmem hhead hwc with
    ⟨st', hok, _, hinv', hblacks⟩ | ⟨c, herr, hcyc⟩
  · refine Or.inl ⟨st'.order, ?_, ?_, hinv'.order_nodup, hinv'.good⟩
    · unfold TopologicalOrder
      rw [hok]
      rfl
    · apply List.Subperm.antisymm
      · exact hinv'.order_nodup.subperm (fun m hm => hinv'.order_sub m hm)
      · apply List.Nodup.subperm hwf.1
        intro m hm
        apply (hinv'.black_iff m).mp
        apply hblacks
        exact (List.perm_insertionSort StrLeRel _).mem_iff.mpr hm
  · refine Or.inr ⟨c, ?_, hcyc⟩
    unfold TopologicalOrder
    rw [herr]
    rfl

theorem sortStrings_perm_eq {l1 l2 : List String} (h : l1.Perm l2) :
    sortStrings l1 = sortStrings l2 :=
  List.eq_of_perm_of_sorted
    ((List.perm_insertionSort _ _).trans (h.trans (List.perm_insertionSort _ _).symm))
    (List.sorted_insertionSort _ _) (List.sorted_insertionSort _ _)

theorem succs_perm_eq {g1 g2 : Graph} (he : g1.edges.Perm g2.edges) (n : String) :
    succs g1 n = succs g2 n := by
  unfold succs
  exact sortStrings_perm_eq ((he.filter _).map _)

theorem visit_congr {g1 g2 : Graph} (hs : ∀ n, succs g1 n = succs g2 n) :
    ∀ fuel st n, visit g1 fuel st n = visit g2 fuel st n := by
  intro fuel
  induction fuel with
  | zero =>
    intro st n
    rfl
  | succ fuel ih =>
    intro st n
    have hfold : ∀ (l : List String) (s : VisitState),
        List.foldlM (visit g1 fuel) s l = List.foldlM (visit g2 fuel) s l := by
      intro l
      induction l with
      | nil =>
        intro s
        rfl
      | cons a t iht =>
        intro s
        rw [foldlM_except_cons, foldlM_except_cons, ih s a]
        cases visit g2 fuel s a with
        | error e => rfl
        | ok s2 => exact iht s2
    simp only [visit]
    cases st.colors n with
    | black => rfl
    | gray => rfl
    | white => rw [hs n, hfold]

theorem foldlM_visit_congr {g1 g2 : Graph} (hs : ∀ n, succs g1 n = succs g2 n) (fuel : Nat) :
    ∀ (l : List String) (s : VisitState),
      List.foldlM (visit g1 fuel) s l = List.foldlM (visit g2 fuel) s l := by
  intro l
  induction l with
  | nil =>
    intro s
    rfl
  | cons a t iht =>
    intro s
    rw [foldlM_except_cons, foldlM_except_cons, visit_congr hs fuel s a]
    cases visit g2 fuel s a with
    | error e => rfl
    | ok s2 => exact iht s2

theorem topo_perm_invariant (g1 g2 : Graph) (hn : g1.nodes.Perm g2.nodes)
    (he : g1.edges.Perm g2.edges) : TopologicalOrder g1 = TopologicalOrder g2 := by
  have hnames : (nodeNames g1).Perm (nodeNames g2) := hn.map Node.name
  unfold TopologicalOrder
  rw [sortStrings_perm_eq hnames, hnames.length_eq,
    foldlM_visit_congr (fun n => succs_perm_eq he n) ((nodeNames g2).length + 1)]

/-- A resolved content descriptor: digest, size, media type, and
annotations serialized from the node's `Properties`. -/
structure Descriptor where
  digest : String
  size : Nat
  mediaType : String
  annotations : String
deriving DecidableEq

/-- Modelled from the spec: the canonical textual encoding of a resolved
target descriptor that replaces a link placeholder in the referencing
content. -/
def encodeDescriptor (d : Descriptor) : String :=
  "[digest=" ++ d.digest ++ ",size=" ++ toString d.size ++
    ",mediaType=" ++ d.mediaType ++ ",annotations=" ++ d.annotations ++ "]"

/-- One resolved node: its name, its rewritten content, and its
descriptor. -/
structure ResolvedEntry where
  name : String
  content : String
  desc : Descriptor
deriving DecidableEq

/-- Look a node up by name. -/
def lookupNode (g : Graph) (n : String) : Option Node :=
  g.nodes.find? (fun nd => nd.name == n)

/-- Look a resolved descriptor up by source name. -/
def lookupResolved (acc : List ResolvedEntry) (n : String) : Option Descriptor :=
  (acc.find? (fun r => r.name == n)).map ResolvedEntry.desc

/-- Modelled from the spec: substitution of resolved links. Each link
entry, taken in deterministic key order, whose value is a string matching
an already-resolved name has every occurrence of that string replaced by
the canonical encoding of the target's descriptor; other entries leave the
content untouched. -/
def substLinks (acc : List ResolvedEntry) (links : List (String × Value))
    (content : String) : String :=
  (sortByKey links).foldl
    (fun c kv =>
      match kv.2 with
      | .str s =>
        match lookupResolved acc s with
        | some d => c.replace s (encodeDescriptor d)
        | none => c
      | _ => c)
    content

/-- The descriptor computed for a node from its final content: digest of
the resolved content under the supplied digest function, its size, an
externally inferred media type, and annotations serialized from the node's
properties. -/
def resolveNodeDescriptor (digestFn mediaFn : String → String) (nd : Node)
    (content : String) : Descriptor :=
  { digest := digestFn content, size := content.length, mediaType := mediaFn nd.name,
    annotations := nd.properties.marshalJSON }

/-- Modelled from the spec: the resolution loop over a precomputed build
order. Each node is looked up, checked against the defensive
`ErrUnresolvedDependency` invariant (every outgoing edge's target must
already be resolved), substituted, and its descriptor appended to the
result in build order. -/
def resolveList (digestFn mediaFn : String → String) (g : Graph) :
    List String → List ResolvedEntry → Except GraphErr (List ResolvedEntry)
  | [], acc => .ok acc
  | n :: rest, acc =>
    match lookupNode g n with
    | none => .error (.nodeNotFound n)
    | some nd =>
      if (g.edges.filter (fun e => e.src == n)).all
          (fun e => (lookupResolved acc e.dst).isSome) then
        resolveList digestFn mediaFn g rest
          (acc ++ [⟨n, substLinks acc nd.links nd.rawContent,
            resolveNodeDescriptor digestFn mediaFn nd
              (substLinks acc nd.links nd.rawContent)⟩])
      else .error (.unresolvedDependency n)

/-- Modelled from the spec: `Resolve` computes the topological order,
propagates its error unchanged, and otherwise resolves every node in
dependency order, returning the resolved entries in build order. -/
def Resolve (digestFn mediaFn : String → String) (g : Graph) :
    Except GraphErr (List ResolvedEntry) :=
  match TopologicalOrder g with
  | .error e => .error e
  | .ok order => resolveList digestFn mediaFn g order []

/-- C5: for every well-formed acyclic graph, `TopologicalOrder` returns a
sequence of names containing every node in which each edge's target
strictly precedes its source, and the output is deterministic: it is
unchanged under any permutation of the node and edge lists (the modelled
map-iteration nondeterminism), ties being broken by the lexicographic
iteration order built into the traversal. -/
theorem topologicalOrder_correct (g : Graph) (hwf : WFGraph g) (hacyc : Acyclic g) :
    ∃ l, TopologicalOrder g = .ok l ∧ l.Perm (nodeNames g) ∧
      (∀ a b, edgeOf g a b → idxOf l b < idxOf l a) ∧
      ∀ g2, g2.nodes.Perm g.nodes → g2.edges.Perm g.edges →
        TopologicalOrder g2 = TopologicalOrder g := by
  rcases topo_run g hwf with ⟨l, hok, hperm, hnd, hgood⟩ | ⟨c, _, hcyc⟩
  · refine ⟨l, hok, hperm, ?_, ?_⟩
    · intro a b hedge
      have ha : a ∈ nodeNames g := by
        obtain ⟨e, he, hsrc, _⟩ := hedge
        exact hsrc ▸ (hwf.2 e he).1
      exact (goodOrder_idx hgood hnd (hperm.mem_iff.mpr ha) hedge).2
    · intro g2 hn2 he2
      exact topo_perm_invariant g2 g hn2 he2
  · obtain ⟨n, hn⟩ := isCycle_transGen hcyc
    exact absurd hn (hacyc n)

/-- A two-node acyclic sample workspace graph. -/
def acyclicSample : Graph := ⟨[NewNode "a", NewNode "b"], [⟨"a", "b", zeroLink⟩]⟩

theorem acyclicSample_acyclic : Acyclic acyclicSample := by
  have hstep : ∀ x y, edgeOf acyclicSample x y → x = "a" ∧ y = "b" := by
    rintro x y ⟨e, he, hsrc, hdst⟩
    simp only [acyclicSample, List.mem_singleton] at he
    subst he
    exact ⟨hsrc.symm ▸ rfl, hdst.symm ▸ rfl⟩
  have hb : ∀ x y, Relation.TransGen (edgeOf acyclicSample) x y → y = "b" := by
    intro x y h
    induction h with
    | single h => exact (hstep _ _ h).2
    | tail _ h _ => exact (hstep _ _ h).2
  have ha : ∀ x y, Relation.TransGen (edgeOf acyclicSample) x y → x = "a" := by
    intro x y h
    induction h with
    | single h => exact (hstep _ _ h).1
    | tail h _ ih => exact ih
  intro n h
  have h1 := hb n n h
  have h2 := ha n n h
  rw [h1] at h2
  exact absurd h2 (by decide)

/-- Evaluation of the C5 theorem at the concrete acyclic sample graph. -/
theorem topologicalOrder_correct_witness :
    WFGraph acyclicSample ∧ Acyclic acyclicSample ∧
    (∃ l, TopologicalOrder acyclicSample = .ok l ∧ l.Perm (nodeNames acyclicSample) ∧
      (∀ a b, edgeOf acyclicSample a b → idxOf l b < idxOf l a) ∧
      ∀ g2, g2.nodes.Perm acyclicSample.nodes → g2.edges.Perm acyclicSample.edges →
        TopologicalOrder g2 = TopologicalOrder acyclicSample) :=
  ⟨by decide, acyclicSample_acyclic,
   topologicalOrder_correct acyclicSample (by decide) acyclicSample_acyclic⟩

/-- Concrete run: on the sample graph with the edge a depends on b, the
output places b before a. -/
theorem topologicalOrder_acyclicSample_eval :
    TopologicalOrder acyclicSample = .ok ["b", "a"] := by rfl

/-- C6: for every well-formed graph with a cycle, `TopologicalOrder` fails
with `ErrCycleDetected` and `Resolve` propagates the identical error (hence
produces no output at all), and the error's member list is a genuine cycle
of the graph: its consecutive elements are edges and its last element has
an edge back to its head, so the error names exactly the members of the
detected cycle. -/
theorem cycle_detected (g : Graph) (digestFn mediaFn : String → String) (n0 : String)
    (hwf : WFGraph g) (hcyc : Relation.TransGen (edgeOf g) n0 n0) :
    ∃ c, TopologicalOrder g = .error (.cycleDetected c) ∧
      Resolve digestFn mediaFn g = .error (.cycleDetected c) ∧ IsCycle g c := by
  rcases topo_run g hwf with ⟨l, _, hperm, hnd, hgood⟩ | ⟨c, herr, hcycle⟩
  · exfalso
    have hn0 : n0 ∈ nodeNames g := by
      cases hcyc with
      | single h =>
        obtain ⟨e, he, hsrc, _⟩ := h
        exact hsrc ▸ (hwf.2 e he).1
      | tail _ h =>
        obtain ⟨e, he, _, hdst⟩ := h
        exact hdst ▸ (hwf.2 e he).2
    have := (goodOrder_transGen hgood hnd hcyc (hperm.mem_iff.mpr hn0)).2
    exact absurd this (Nat.lt_irrefl _)
  · refine ⟨c, herr, ?_, hcycle⟩
    unfold Resolve
    rw [herr]

/-- A two-node cyclic sample graph. -/
def cyclicSample : Graph :=
  ⟨[NewNode "a", NewNode "b"], [⟨"a", "b", zeroLink⟩, ⟨"b", "a", zeroLink⟩]⟩

/-- Evaluation of the C6 theorem at the concrete cyclic sample graph. -/
theorem cycle_detected_witness :
    WFGraph cyclicSample ∧
    (∃ c, TopologicalOrder cyclicSample = .error (.cycleDetected c) ∧
      Resolve (fun s => s) (fun _ => "t") cyclicSample = .error (.cycleDetected c) ∧
      IsCycle cyclicSample c) :=
  ⟨by decide,
   cycle_detected cyclicSample (fun s => s) (fun _ => "t") "a" (by decide)
     (Relation.TransGen.tail
       (Relation.TransGen.single (by decide : edgeOf cyclicSample "a" "b"))
       (by decide : edgeOf cyclicSample "b" "a"))⟩

/-- Concrete run: on the two-node cycle both members are named. -/
theorem topologicalOrder_cyclicSample_eval :
    TopologicalOrder cyclicSample = .error (.cycleDetected ["a", "b"]) := by rfl

/-- C7 (amended): when either endpoint is absent, `AddEdge` fails with
`ErrNodeNotFound` naming an absent endpoint and records nothing (an error
result carries no graph); `AddEdge(x, x)` fails with `ErrSelfReference` for
every `x` that is present in the graph — when `x` is absent the
missing-node check fires first. -/
theorem addEdge_endpoint_errors (g : Graph) (src dst x : String) (props : LinkAttributes) :
    ((src ∉ nodeNames g ∨ dst ∉ nodeNames g) →
      ∃ m, AddEdge g src dst props = .error (.nodeNotFound m) ∧
        (m = src ∨ m = dst) ∧ m ∉ nodeNames g) ∧
    (x ∈ nodeNames g → AddEdge g x x props = .error (.selfReference x)) := by
  constructor
  · intro h
    by_cases hsrc : src ∈ nodeNames g
    · have hdst : dst ∉ nodeNames g := by
        rcases h with h | h
        · exact absurd hsrc h
        · exact h
      refine ⟨dst, ?_, Or.inr rfl, hdst⟩
      simp [AddEdge, hsrc, hdst]
    · refine ⟨src, ?_, Or.inl rfl, hsrc⟩
      simp [AddEdge, hsrc]
  · intro hx
    simp [AddEdge, hx]

/-- On the empty graph, `AddEdge("a", "a")` reports the missing node, not a
self-reference, refuting the unconditional self-reference reading. -/
theorem addEdge_self_absent_counterexample :
    AddEdge NewGraph "a" "a" zeroLink = .error (.nodeNotFound "a") ∧
    ¬ AddEdge NewGraph "a" "a" zeroLink = .error (.selfReference "a") := by
  constructor
  · rfl
  · intro h
    cases h

/-- Evaluation of the C7 theorem at concrete inputs: a dangling target and
a present self-referencing endpoint. -/
theorem addEdge_endpoint_errors_witness :
    (∃ m, AddEdge acyclicSample "a" "zzz" zeroLink = .error (.nodeNotFound m) ∧
      (m = "a" ∨ m = "zzz") ∧ m ∉ nodeNames acyclicSample) ∧
    AddEdge acyclicSample "a" "a" zeroLink = .error (.selfReference "a") :=
  ⟨(addEdge_endpoint_errors acyclicSample "a" "zzz" "a" zeroLink).1 (Or.inr (by decide)),
   (addEdge_endpoint_errors acyclicSample "a" "zzz" "a" zeroLink).2 (by decide)⟩

theorem find?_nodes_perm {l1 l2 : List Node} (hperm : l1.Perm l2)
    (hnd : (l1.map Node.name).Nodup) (n : String) :
    l1.find? (fun nd => nd.name == n) = l2.find? (fun nd => nd.name == n) := by
  cases h1 : l1.find? (fun nd => nd.name == n) with
  | none =>
    have hall := List.find?_eq_none.mp h1
    symm
    apply List.find?_eq_none.mpr
    intro x hx
    exact hall x (hperm.mem_iff.mpr hx)
  | some nd =>
    have hp := List.find?_some h1
    have hmem : nd ∈ l1 := List.mem_of_find?_eq_some h1
    cases h2 : l2.find? (fun nd => nd.name == n) with
    | none =>
      have hall := List.find?_eq_none.mp h2
      exact absurd hp (by simpa using hall nd (hperm.mem_iff.mp hmem))
    | some nd2 =>
      have hp2 := List.find?_some h2
      have hmem2 : nd2 ∈ l1 := hperm.mem_iff.mpr (List.mem_of_find?_eq_some h2)
      have heq : nd = nd2 := by
        apply List.inj_on_of_nodup_map hnd hmem hmem2
        simp only [beq_iff_eq] at hp hp2
        rw [hp, hp2]
      rw [heq]

theorem all_perm {α : Type} (l1 l2 : List α) (h : l1.Perm l2) (p : α → Bool) :
    l1.all p = l2.all p := by
  have hiff : (l1.all p = true) ↔ (l2.all p = true) := by
    simp only [List.all_eq_true]
    constructor
    · intro ha x hx
      exact ha x (h.mem_iff.mpr hx)
    · intro ha x hx
      exact ha x (h.mem_iff.mp hx)
  cases hb1 : l1.all p <;> cases hb2 : l2.all p <;> simp_all

theorem resolveList_congr (digestFn mediaFn : String → String) (g1 g2 : Graph)
    (hlook : ∀ n, lookupNode g1 n = lookupNode g2 n)
    (hedges : g1.edges.Perm g2.edges) :
    ∀ (order : List String) (acc : List ResolvedEntry),
      resolveList digestFn mediaFn g1 order acc =
        resolveList digestFn mediaFn g2 order acc := by
  intro order
  induction order with
  | nil =>
    intro acc
    rfl
  | cons n rest ih =>
    intro acc
    simp only [resolveList]
    rw [hlook n]
    cases lookupNode g2 n with
    | none => rfl
    | some nd =>
      have hall : (g1.edges.filter (fun e => e.src == n)).all
          (fun e => (lookupResolved acc e.dst).isSome) =
          (g2.edges.filter (fun e => e.src == n)).all
          (fun e => (lookupResolved acc e.dst).isSome) :=
        all_perm _ _ (hedges.filter _) _
      rw [hall]
      by_cases hc : (g2.edges.filter (fun e => e.src == n)).all
          (fun e => (lookupResolved acc e.dst).isSome) = true
      · simp only [hc, if_true]
        exact ih _
      · simp only [Bool.not_eq_true] at hc
        simp [hc]

/-- C8: `Resolve` is deterministic. Two graphs with the same nodes (same
names, raw content, links, properties) and the same edges — as multisets,
so any Go map-iteration order — resolve, under the same digest and
media-type functions, to identical results: the same descriptors and
byte-identical resolved content for every node, or the identical error. -/
theorem resolve_deterministic (digestFn mediaFn : String → String) (g1 g2 : Graph)
    (hnd : (nodeNames g1).Nodup) (hnodes : g1.nodes.Perm g2.nodes)
    (hedges : g1.edges.Perm g2.edges) :
    Resolve digestFn mediaFn g1 = Resolve digestFn mediaFn g2 := by
  unfold Resolve
  rw [topo_perm_invariant g1 g2 hnodes hedges]
  cases TopologicalOrder g2 with
  | error e => rfl
  | ok order =>
    exact resolveList_congr digestFn mediaFn g1 g2
      (fun n => find?_nodes_perm hnodes hnd n) hedges order []

/-- A sample node whose content links to node b. -/
def sampleNodeA : Node :=
  { name := "a", rawContent := "see b", links := [("l", Value.str "b")],
    properties := Properties.empty }

/-- A sample leaf node. -/
def sampleNodeB : Node :=
  { name := "b", rawContent := "leaf", links := [], properties := Properties.empty }

/-- Evaluation of the C8 theorem at two node-permuted sample graphs. -/
theorem resolve_deterministic_witness :
    (nodeNames ⟨[sampleNodeA, sampleNodeB], [⟨"a", "b", zeroLink⟩]⟩).Nodup ∧
    Resolve (fun s => s) (fun _ => "t") ⟨[sampleNodeA, sampleNodeB], [⟨"a", "b", zeroLink⟩]⟩ =
      Resolve (fun s => s) (fun _ => "t") ⟨[sampleNodeB, sampleNodeA], [⟨"a", "b", zeroLink⟩]⟩ :=
  ⟨by decide,
   resolve_deterministic (fun s => s) (fun _ => "t") _ _ (by decide)
     (List.Perm.swap sampleNodeB sampleNodeA []) (List.Perm.refl _)⟩

instance {e a : Type} [DecidableEq e] [DecidableEq a] : DecidableEq (Except e a) := fun x y =>
  match x, y with
  | .error u, .error v =>
    if h : u = v then .isTrue (by rw [h]) else .isFalse (fun he => h (Except.error.inj he))
  | .ok u, .ok v =>
    if h : u = v then .isTrue (by rw [h]) else .isFalse (fun he => h (Except.ok.inj he))
  | .error _, .ok _ => .isFalse (fun he => Except.noConfusion he)
  | .ok _, .error _ => .isFalse (fun he => Except.noConfusion he)

/-- Outcome of `parser.ByContentType` followed by `GetLinkableData`, as
consumed by `BuildOptions.Run` (`cli/build.go`): a parser may be found for
the content (whose `GetLinkableData` may itself fail), the content may be
rejected with an `ErrInvalidFormat`-class error, or parser selection may
fail with any other error. -/
inductive ParserOutcome where
  | parsed (getLinkableData : Except String (String × List (String × Value)))
  | invalidFormat (msg : String)
  | failed (msg : String)
deriving DecidableEq

/-- The per-file step of `BuildOptions.Run` (`cli/build.go` lines 142-160):
`ErrInvalidFormat` falls through the switch, so the freshly created node is
added with zero-valued template and links; any other error (from parser
selection or from `GetLinkableData`) aborts; on success the node is added
with the parsed template and links. -/
def processFile (g : Graph) (path : String) : ParserOutcome → Except String Graph
  | .parsed (.error e) => .error e
  | .parsed (.ok (tmpl, links)) =>
    .ok { g with nodes := g.nodes ++
      [{ name := path, rawContent := tmpl, links := links,
         properties := Properties.empty }] }
  | .invalidFormat _ => .ok { g with nodes := g.nodes ++ [NewNode path] }
  | .failed m => .error m

/-- C3: a file whose content the parser rejects with an
`ErrInvalidFormat`-class error is still added to the graph as a node with
no links and the build does not fail; any other parser error (from parser
selection or from link extraction) aborts the build with that error. -/
theorem processFile_spec (g : Graph) (path m tmpl : String)
    (links : List (String × Value)) :
    (processFile g path (.invalidFormat m) =
      .ok { g with nodes := g.nodes ++ [NewNode path] } ∧
      (NewNode path).links = []) ∧
    processFile g path (.failed m) = .error m ∧
    processFile g path (.parsed (.error m)) = .error m ∧
    processFile g path (.parsed (.ok (tmpl, links))) =
      .ok { g with nodes := g.nodes ++
        [{ name := path, rawContent := tmpl, links := links,
           properties := Properties.empty }] } :=
  ⟨⟨rfl, rfl⟩, rfl, rfl, rfl⟩

/-- Errors of the edge-construction loop of `BuildOptions.Run`. -/
inductive BuildErr where
  | graphErr (e : GraphErr)
  | linkTypeError (link : String)
deriving DecidableEq

/-- The edge-construction loop of `BuildOptions.Run` (`cli/build.go` lines
162-177) for one node: every link entry must hold a string value (otherwise
the build fails with a type error naming the link), and each string value
is passed to `AddEdge`, whose error aborts the build. -/
def addEdgesForNode (g : Graph) (n : String) :
    List (String × Value) → Except BuildErr Graph
  | [] => .ok g
  | (link, data) :: rest =>
    match data with
    | .str fpath =>
      match AddEdge g n fpath zeroLink with
      | .error e => .error (.graphErr e)
      | .ok g2 => addEdgesForNode g2 n rest
    | _ => .error (.linkTypeError link)

/-- C4 (amended): a link entry whose value is not a string matching another
node's name never becomes an edge, but it is not inert: a non-string value
makes the edge-construction loop fail with a type error naming the link,
and a string value that names no node in the graph makes `AddEdge` fail
with `ErrNodeNotFound`, aborting the build. -/
theorem addEdges_non_link_entries_abort (g : Graph) (n link s : String) (v : Value)
    (rest : List (String × Value)) :
    ((∀ t, v ≠ Value.str t) →
      addEdgesForNode g n ((link, v) :: rest) = .error (.linkTypeError link)) ∧
    (n ∈ nodeNames g → s ∉ nodeNames g →
      addEdgesForNode g n ((link, Value.str s) :: rest) =
        .error (.graphErr (.nodeNotFound s))) := by
  constructor
  · intro h
    cases v with
    | str t => exact absurd rfl (h t)
    | int i => rfl
    | bool b => rfl
    | null => rfl
  · intro hn hs
    simp [addEdgesForNode, AddEdge, hn, hs]

/-- On a single-node graph, a link entry holding the integer 2 makes the
edge-construction loop fail instead of being skipped as inert template
data, refuting the claim as stated. -/
theorem addEdges_nonstring_counterexample :
    addEdgesForNode ⟨[NewNode "a"], []⟩ "a" [("x", Value.int 2)] =
      .error (.linkTypeError "x") := rfl

/-- Evaluation of the C4 theorem at concrete inputs: an integer-valued
entry and a string entry naming no node. -/
theorem addEdges_non_link_entries_abort_witness :
    addEdgesForNode ⟨[NewNode "a"], []⟩ "a" [("y", Value.int 7)] =
      .error (.linkTypeError "y") ∧
    addEdgesForNode ⟨[NewNode "a"], []⟩ "a" [("y", Value.str "b")] =
      .error (.graphErr (.nodeNotFound "b")) :=
  ⟨(addEdges_non_link_entries_abort ⟨[NewNode "a"], []⟩ "a" "y" "b" (Value.int 7) []).1
     (fun t h => Value.noConfusion h),
   (addEdges_non_link_entries_abort ⟨[NewNode "a"], []⟩ "a" "y" "b" (Value.int 7) []).2
     (by decide) (by decide)⟩
